import Mathlib

/-!
Shallow embedding of the reconciliation core of the seller-apis repository
(src/seller.py for the Ozon marketplace, src/market.py for Yandex.Market),
together with theorems about the reconciliation, normalization, batching,
pagination and orchestration behaviour of the two modules.

Python strings become `String`, Python lists become `List`, Python ints
become `Int`, and code that can raise (`int(...)` on a non-numeric string)
returns `Option`.
-/

/-- One row of the supplier remnants feed. The Python code reads the dict
fields "Код" (product code), "Количество" (raw quantity) and "Цена" (raw
price text) and coerces the first two through `str`, so they are modelled
as strings. -/
structure SupplierRecord where
  kod : String
  kolichestvo : String
  tsena : String
deriving DecidableEq, Repr

/-- Python `int(s)` on a string: surrounding ASCII whitespace is ignored, an
optional single sign precedes a non-empty run of decimal digits; anything
else raises ValueError (modelled as `none`). -/
def pyDigitsVal (cs : List Char) : Option Nat :=
  if cs ≠ [] ∧ cs.all Char.isDigit then
    some (cs.foldl (fun acc c => acc * 10 + (c.toNat - 48)) 0)
  else
    none

/-- The whitespace stripping Python `int` applies to its string argument
before parsing it. -/
def pyStrip (cs : List Char) : List Char :=
  ((cs.dropWhile Char.isWhitespace).reverse.dropWhile Char.isWhitespace).reverse

/-- Python `int` applied to a string, returning `none` where Python raises
ValueError. -/
def pyInt (s : String) : Option Int :=
  match pyStrip s.data with
  | [] => none
  | c :: cs =>
    if c = '-' then (pyDigitsVal cs).map (fun n => -(n : Int))
    else if c = '+' then (pyDigitsVal cs).map (fun n => (n : Int))
    else (pyDigitsVal (c :: cs)).map (fun n => (n : Int))

/-- The quantity translation applied inline by both `create_stocks`
functions: `">10"` means 100, `"1"` means 0, and anything else goes through
Python `int`, raising on a non-integer string. -/
def resolveCount (count : String) : Option Int :=
  if count = ">10" then some 100
  else if count = "1" then some 0
  else pyInt count

/-- `price_conversion` from src/seller.py:
`re.sub("[^0-9]", "", price.split(".")[0])` — keep the segment before the
first `.` (the whole string when there is no `.`) and delete every
character that is not an ASCII digit. -/
def price_conversion (price : String) : String :=
  ⟨(price.data.takeWhile (fun c => c ≠ '.')).filter (fun c => c.isDigit)⟩

/-- `divide` from src/seller.py: `for i in range(0, len(lst), n): yield
lst[i:i+n]`. For `n = 0` the Python `range` call raises; that case is modelled as
the empty chunk list and never used by the theorems. -/
def divide (lst : List α) (n : Nat) : List (List α) :=
  if h : lst.isEmpty ∨ n = 0 then []
  else lst.take n :: divide (lst.drop n) n
termination_by lst.length
decreasing_by
  simp only [not_or, List.isEmpty_iff] at h
  simp only [List.length_drop]
  exact Nat.sub_lt (List.length_pos.mpr h.1) (Nat.pos_of_ne_zero h.2)

namespace seller

/-- One entry of the stock list built by `create_stocks` in src/seller.py:
`{"offer_id": ..., "stock": ...}`. -/
structure Stock where
  offer_id : String
  stock : Int
deriving DecidableEq, Repr

/-- The matching phase of `create_stocks` in src/seller.py: scan the feed in
order; a record whose code is contained in the current `offer_ids` list has
its quantity resolved (raising, i.e. `none`, on an unparsable quantity), is
emitted, and its code is removed from the list (Python `list.remove`, first
occurrence). Returns the emitted records and the depleted `offer_ids`. -/
def create_stocksAux : List SupplierRecord → List String → Option (List Stock × List String)
  | [], offer_ids => some ([], offer_ids)
  | w :: ws, offer_ids =>
    if w.kod ∈ offer_ids then
      match resolveCount w.kolichestvo with
      | none => none
      | some st =>
        match create_stocksAux ws (offer_ids.erase w.kod) with
        | none => none
        | some (out, rest) => some (⟨w.kod, st⟩ :: out, rest)
    else
      create_stocksAux ws offer_ids

/-- `create_stocks` from src/seller.py, additionally returning the depleted
`offer_ids` list (the in-place mutation the Python caller observes). The
output is the matched records followed by a zero stock record for every
identifier still left in `offer_ids`. -/
def create_stocksFull (watch_remnants : List SupplierRecord) (offer_ids : List String) :
    Option (List Stock × List String) :=
  match create_stocksAux watch_remnants offer_ids with
  | none => none
  | some (out, rest) => some (out ++ rest.map (fun offer_id => ⟨offer_id, 0⟩), rest)

/-- `create_stocks` from src/seller.py: just the stock list. -/
def create_stocks (watch_remnants : List SupplierRecord) (offer_ids : List String) :
    Option (List Stock) :=
  (create_stocksFull watch_remnants offer_ids).map Prod.fst

/-- One entry of the price list built by `create_prices` in src/seller.py. -/
structure Price where
  auto_action_enabled : String
  currency_code : String
  offer_id : String
  old_price : String
  price : String
deriving DecidableEq, Repr

/-- The record `create_prices` builds for one matched supplier record. -/
def mkPrice (w : SupplierRecord) : Price :=
  ⟨"UNKNOWN", "RUB", w.kod, "0", price_conversion w.tsena⟩

/-- `create_prices` from src/seller.py: emit a price record for every feed
record whose code is in `offer_ids` (the list is only read, never
mutated); the price string is whatever `price_conversion` yields, with no
check that it is non-empty. -/
def create_prices (watch_remnants : List SupplierRecord) (offer_ids : List String) :
    List Price :=
  watch_remnants.filterMap (fun w =>
    if w.kod ∈ offer_ids then some (mkPrice w) else none)

end seller

namespace market

/-- One element of the `items` list inside a Yandex stock record:
`{"count": ..., "type": "FIT", "updatedAt": date}`. -/
structure StockItem where
  count : Int
  itemType : String
  updatedAt : String
deriving DecidableEq, Repr

/-- One entry of the stock list built by `create_stocks` in src/market.py:
`{"sku": ..., "warehouseId": ..., "items": [...]}`. -/
structure Stock where
  sku : String
  warehouseId : String
  items : List StockItem
deriving DecidableEq, Repr

/-- The matching phase of `create_stocks` in src/market.py: identical
control flow to the Ozon variant, but each emitted record carries the
warehouse id and a single dated item. `date` stands for the timestamp
string computed once at the top of the function. -/
def create_stocksAux (warehouse_id date : String) :
    List SupplierRecord → List String → Option (List Stock × List String)
  | [], offer_ids => some ([], offer_ids)
  | w :: ws, offer_ids =>
    if w.kod ∈ offer_ids then
      match resolveCount w.kolichestvo with
      | none => none
      | some st =>
        match create_stocksAux warehouse_id date ws (offer_ids.erase w.kod) with
        | none => none
        | some (out, rest) =>
          some (⟨w.kod, warehouse_id, [⟨st, "FIT", date⟩]⟩ :: out, rest)
    else
      create_stocksAux warehouse_id date ws offer_ids

/-- `create_stocks` from src/market.py, additionally returning the depleted
`offer_ids` list. -/
def create_stocksFull (watch_remnants : List SupplierRecord) (offer_ids : List String)
    (warehouse_id date : String) : Option (List Stock × List String) :=
  match create_stocksAux warehouse_id date watch_remnants offer_ids with
  | none => none
  | some (out, rest) =>
    some (out ++ rest.map (fun offer_id => ⟨offer_id, warehouse_id, [⟨0, "FIT", date⟩]⟩), rest)

/-- `create_stocks` from src/market.py: just the stock list. -/
def create_stocks (watch_remnants : List SupplierRecord) (offer_ids : List String)
    (warehouse_id date : String) : Option (List Stock) :=
  (create_stocksFull watch_remnants offer_ids warehouse_id date).map Prod.fst

/-- One entry of the price list built by `create_prices` in src/market.py:
`{"id": ..., "price": {"value": int(...), "currencyId": "RUR"}}`. -/
structure Price where
  id : String
  value : Int
  currencyId : String
deriving DecidableEq, Repr

/-- `create_prices` from src/market.py: emit a price record for every feed
record whose code is in `offer_ids`; the normalized price string goes
through Python `int`, which raises ValueError (modelled as `none`) when
`price_conversion` yields the empty string. -/
def create_prices (watch_remnants : List SupplierRecord) (offer_ids : List String) :
    Option (List Price) :=
  match watch_remnants with
  | [] => some []
  | w :: ws =>
    if w.kod ∈ offer_ids then
      match pyInt (price_conversion w.tsena) with
      | none => none
      | some v =>
        match create_prices ws offer_ids with
        | none => none
        | some ps => some (⟨w.kod, v, "RUR"⟩ :: ps)
    else
      create_prices ws offer_ids

end market

namespace seller

/-- One product item of an Ozon product-list response; `get_offer_ids`
extracts its `offer_id`. -/
structure Item where
  offer_id : String
deriving DecidableEq, Repr

/-- One page returned by `get_product_list` in src/seller.py: the `items`
of this page, the running `total` reported by the endpoint, and the `last_id`
(only threaded through, not inspected by the loop condition). -/
structure Page where
  items : List Item
  total : Nat
  last_id : String
deriving DecidableEq, Repr

/-- The pagination loop of `get_offer_ids` in src/seller.py, with the
endpoint modelled as the script of responses the successive calls return.
After extending the accumulator with the items of a page the loop stops when
`total == len(product_list)`; an exhausted script (the real loop would
issue a call forever unanswered) is `none`. -/
def get_offer_idsAux : List Page → List Item → Option (List Item)
  | [], _ => none
  | p :: ps, acc =>
    let acc' := acc ++ p.items
    if p.total = acc'.length then some acc' else get_offer_idsAux ps acc'

/-- `get_offer_ids` from src/seller.py over a response script: the flattened
accumulated items, mapped to their `offer_id`s. -/
def get_offer_ids (pages : List Page) : Option (List String) :=
  (get_offer_idsAux pages []).map (fun items => items.map Item.offer_id)

end seller

namespace market

/-- One offer-mapping entry of a Yandex response; `get_offer_ids` extracts
`offer.shopSku`. -/
structure Entry where
  shopSku : String
deriving DecidableEq, Repr

/-- One page returned by `get_product_list` in src/market.py: the
`offerMappingEntries` and the `paging.nextPageToken` (a missing token is
the empty string, which the Python `if not page` test treats the same way). -/
structure Page where
  entries : List Entry
  nextPageToken : String
deriving DecidableEq, Repr

/-- The pagination loop of `get_offer_ids` in src/market.py over a response
script: stop as soon as a page carries an empty `nextPageToken`. -/
def get_offer_idsAux : List Page → List Entry → Option (List Entry)
  | [], _ => none
  | p :: ps, acc =>
    let acc' := acc ++ p.entries
    if p.nextPageToken = "" then some acc' else get_offer_idsAux ps acc'

/-- `get_offer_ids` from src/market.py over a response script. -/
def get_offer_ids (pages : List Page) : Option (List String) :=
  (get_offer_idsAux pages []).map (fun entries => entries.map Entry.shopSku)

end market

/-- The exceptions reaching the `try`/`except` ladder at the bottom of each
`main`: `requests.exceptions.ReadTimeout`, `requests.exceptions.ConnectionError`,
and every other `Exception` (including the ValueError a bad quantity raises). -/
inductive PyError where
  | readTimeout
  | connectionError (msg : String)
  | other (msg : String)
deriving DecidableEq, Repr

/-- How a call of `main` ends: a normal return carrying the console reports
it printed, or an uncaught exception. -/
inductive MainOutcome where
  | normal (printed : List String)
  | raised (e : PyError)
deriving DecidableEq, Repr

/-- The `except` ladder shared by both `main` functions: the three clauses
catch every `PyError` and print a report, so a protected body never leaks
an exception. -/
def handleTop : Except PyError Unit → MainOutcome
  | Except.ok _ => MainOutcome.normal []
  | Except.error PyError.readTimeout => MainOutcome.normal ["Превышено время ожидания..."]
  | Except.error (PyError.connectionError m) => MainOutcome.normal [m ++ " Ошибка соединения"]
  | Except.error (PyError.other m) => MainOutcome.normal [m ++ " ERROR_2"]

namespace seller

/-- The reconciliation data flow inside `main` of src/seller.py (lines
449–453): `create_stocks` is called directly on the fetched `offer_ids`
list and mutates it; `create_prices` is then called on that same, depleted
list. The middle component is the offer-identifier list `create_prices`
receives. -/
def syncCore (watch_remnants : List SupplierRecord) (offer_ids : List String) :
    Option (List Stock × List String × List Price) :=
  match create_stocksFull watch_remnants offer_ids with
  | none => none
  | some (stocks, remaining) =>
    some (stocks, remaining, create_prices watch_remnants remaining)

/-- The external calls `main` of src/seller.py performs, each able to raise:
the paginated offer fetch, the feed download, and the batched uploads. -/
structure Env where
  fetchOffers : Except PyError (List String)
  download : Except PyError (List SupplierRecord)
  pushStocks : List Stock → Except PyError Unit
  pushPrices : List Price → Except PyError Unit

/-- The `try` suite of `main` in src/seller.py: fetch, download, reconcile
(a quantity parse failure raises ValueError here), then submit the stock
batches of 100 and the price batches of 900. -/
def tryBody (env : Env) : Except PyError Unit := do
  let offer_ids ← env.fetchOffers
  let watch_remnants ← env.download
  match syncCore watch_remnants offer_ids with
  | none => Except.error (PyError.other "invalid literal for int with base 10")
  | some (stocks, _, prices) => do
    (divide stocks 100).forM env.pushStocks
    (divide prices 900).forM env.pushPrices

/-- `main` from src/seller.py: the whole orchestration body runs inside the
`try`, so every `PyError` is handled by the `except` ladder. -/
def main (env : Env) : MainOutcome :=
  handleTop (tryBody env)

end seller

namespace market

/-- The external calls `main` of src/market.py performs inside its `try`
suite, plus the per-channel warehouse ids and the timestamp string. -/
structure Env where
  fetchOffersFbs : Except PyError (List String)
  fetchOffersDbs : Except PyError (List String)
  pushStocks : List Stock → Except PyError Unit
  warehouseFbs : String
  warehouseDbs : String
  date : String

/-- One channel of the `try` suite of `main` in src/market.py: fetch the
offers of the channel, reconcile stocks and submit them in batches of 2000. The
trailing `upload_prices(...)` call only creates a coroutine that is never
awaited, so it performs no work and is not modelled as an effect. -/
def channelBody (watch_remnants : List SupplierRecord) (fetch : Except PyError (List String))
    (warehouse : String) (env : Env) : Except PyError Unit := do
  let offer_ids ← fetch
  match create_stocksFull watch_remnants offer_ids warehouse env.date with
  | none => Except.error (PyError.other "invalid literal for int with base 10")
  | some (stocks, _) => (divide stocks 2000).forM env.pushStocks

/-- The `try` suite of `main` in src/market.py: the FBS channel then the
DBS channel. -/
def tryBody (watch_remnants : List SupplierRecord) (env : Env) : Except PyError Unit := do
  channelBody watch_remnants env.fetchOffersFbs env.warehouseFbs env
  channelBody watch_remnants env.fetchOffersDbs env.warehouseDbs env

/-- `main` from src/market.py: `download_stock()` runs before the `try`
block, so a download failure propagates out of `main`; everything after it
is protected by the `except` ladder. -/
def main (download : Except PyError (List SupplierRecord)) (env : Env) : MainOutcome :=
  match download with
  | Except.error e => MainOutcome.raised e
  | Except.ok watch_remnants => handleTop (tryBody watch_remnants env)

end market

/-- Projection of an Ozon stock record to its identifier and emitted counts,
used to relate the two structurally identical `create_stocks` variants. -/
def seller.proj (s : seller.Stock) : String × List Int :=
  (s.offer_id, [s.stock])

/-- Projection of a Yandex stock record to its identifier and emitted
counts. -/
def market.proj (s : market.Stock) : String × List Int :=
  (s.sku, s.items.map market.StockItem.count)


namespace seller

theorem create_stocksAux_perm : ∀ (ws : List SupplierRecord) (ids out rest : _),
    create_stocksAux ws ids = some (out, rest) →
    (out.map Stock.offer_id ++ rest).Perm ids := by
  intro ws
  induction ws with
  | nil =>
    intro ids out rest h
    simp only [create_stocksAux, Option.some.injEq, Prod.mk.injEq] at h
    obtain ⟨h1, h2⟩ := h
    subst h1; subst h2
    simp
  | cons w ws ih =>
    intro ids out rest h
    simp only [create_stocksAux] at h
    by_cases hmem : w.kod ∈ ids
    · rw [if_pos hmem] at h
      cases hr : resolveCount w.kolichestvo with
      | none => rw [hr] at h; cases h
      | some st =>
        rw [hr] at h
        cases ha : create_stocksAux ws (ids.erase w.kod) with
        | none => rw [ha] at h; cases h
        | some p =>
          obtain ⟨out', rest'⟩ := p
          rw [ha] at h
          simp only [Option.some.injEq, Prod.mk.injEq] at h
          obtain ⟨h1, h2⟩ := h
          subst h1; subst h2
          have hperm := ih (ids.erase w.kod) out' rest' ha
          have : (Stock.mk w.kod st :: out').map Stock.offer_id ++ rest'
              = w.kod :: (out'.map Stock.offer_id ++ rest') := by simp
          rw [this]
          exact ((hperm.cons w.kod).trans (List.perm_cons_erase hmem).symm)
    · rw [if_neg hmem] at h
      exact ih ids out rest h

end seller

namespace seller

theorem create_stocksAux_rest_subset (ws : List SupplierRecord) (ids out rest : _)
    (h : create_stocksAux ws ids = some (out, rest)) : rest ⊆ ids := by
  intro c hc
  exact (create_stocksAux_perm ws ids out rest h).subset (List.mem_append_right _ hc)

theorem create_stocksAux_out_codes : ∀ (ws : List SupplierRecord) (ids out rest : _),
    create_stocksAux ws ids = some (out, rest) →
    ∀ s ∈ out, ∃ w ∈ ws, s.offer_id = w.kod ∧ resolveCount w.kolichestvo = some s.stock := by
  intro ws
  induction ws with
  | nil =>
    intro ids out rest h
    simp only [create_stocksAux, Option.some.injEq, Prod.mk.injEq] at h
    obtain ⟨h1, _⟩ := h
    subst h1
    intro s hs
    cases hs
  | cons w ws ih =>
    intro ids out rest h
    simp only [create_stocksAux] at h
    by_cases hmem : w.kod ∈ ids
    · rw [if_pos hmem] at h
      cases hr : resolveCount w.kolichestvo with
      | none => rw [hr] at h; cases h
      | some st =>
        rw [hr] at h
        cases ha : create_stocksAux ws (ids.erase w.kod) with
        | none => rw [ha] at h; cases h
        | some p =>
          obtain ⟨out', rest'⟩ := p
          rw [ha] at h
          simp only [Option.some.injEq, Prod.mk.injEq] at h
          obtain ⟨h1, _⟩ := h
          subst h1
          intro s hs
          rcases List.mem_cons.mp hs with hs | hs
          · subst hs
            exact ⟨w, List.mem_cons_self _ _, rfl, hr⟩
          · obtain ⟨w', hw', hcode, hres⟩ := ih _ _ _ ha s hs
            exact ⟨w', List.mem_cons_of_mem _ hw', hcode, hres⟩
    · rw [if_neg hmem] at h
      intro s hs
      obtain ⟨w', hw', hcode, hres⟩ := ih _ _ _ h s hs
      exact ⟨w', List.mem_cons_of_mem _ hw', hcode, hres⟩

theorem create_stocksAux_unmatched : ∀ (ws : List SupplierRecord) (ids out rest : _),
    create_stocksAux ws ids = some (out, rest) →
    ∀ c ∈ ids, (∀ w ∈ ws, w.kod ≠ c) → c ∈ rest := by
  intro ws
  induction ws with
  | nil =>
    intro ids out rest h c hc _
    simp only [create_stocksAux, Option.some.injEq, Prod.mk.injEq] at h
    obtain ⟨_, h2⟩ := h
    subst h2
    exact hc
  | cons w ws ih =>
    intro ids out rest h c hc hnone
    simp only [create_stocksAux] at h
    by_cases hmem : w.kod ∈ ids
    · rw [if_pos hmem] at h
      cases hr : resolveCount w.kolichestvo with
      | none => rw [hr] at h; cases h
      | some st =>
        rw [hr] at h
        cases ha : create_stocksAux ws (ids.erase w.kod) with
        | none => rw [ha] at h; cases h
        | some p =>
          obtain ⟨out', rest'⟩ := p
          rw [ha] at h
          simp only [Option.some.injEq, Prod.mk.injEq] at h
          obtain ⟨_, h2⟩ := h
          subst h2
          have hne : w.kod ≠ c := hnone w (List.mem_cons_self _ _)
          have hc' : c ∈ ids.erase w.kod := (List.mem_erase_of_ne (Ne.symm hne)).mpr hc
          exact ih _ _ _ ha c hc' (fun w' hw' => hnone w' (List.mem_cons_of_mem _ hw'))
    · rw [if_neg hmem] at h
      exact ih _ _ _ h c hc (fun w' hw' => hnone w' (List.mem_cons_of_mem _ hw'))

theorem create_stocksAux_matched_removed : ∀ (ws : List SupplierRecord) (ids out rest : _),
    ids.Nodup → create_stocksAux ws ids = some (out, rest) →
    ∀ w ∈ ws, w.kod ∈ ids → w.kod ∉ rest := by
  intro ws
  induction ws with
  | nil =>
    intro ids out rest _ h w hw
    cases hw
  | cons w' ws ih =>
    intro ids out rest hnd h w hw hmem'
    simp only [create_stocksAux] at h
    by_cases hmem : w'.kod ∈ ids
    · rw [if_pos hmem] at h
      cases hr : resolveCount w'.kolichestvo with
      | none => rw [hr] at h; cases h
      | some st =>
        rw [hr] at h
        cases ha : create_stocksAux ws (ids.erase w'.kod) with
        | none => rw [ha] at h; cases h
        | some p =>
          obtain ⟨out', rest'⟩ := p
          rw [ha] at h
          simp only [Option.some.injEq, Prod.mk.injEq] at h
          obtain ⟨_, h2⟩ := h
          subst h2
          by_cases hkod : w.kod = w'.kod
          · rw [hkod]
            intro hbad
            exact hnd.not_mem_erase (create_stocksAux_rest_subset _ _ _ _ ha hbad)
          · rcases List.mem_cons.mp hw with hw | hw
            · exact absurd (congrArg SupplierRecord.kod hw) hkod
            · exact ih _ _ _ (hnd.erase _) ha w hw ((List.mem_erase_of_ne hkod).mpr hmem')
    · rw [if_neg hmem] at h
      rcases List.mem_cons.mp hw with hw | hw
      · subst hw; exact absurd hmem' hmem
      · exact ih _ _ _ hnd h w hw hmem'

end seller

namespace seller

theorem create_stocksAux_first_match :
    ∀ (ws : List SupplierRecord) (ids out rest : _) (c : String) (w : SupplierRecord),
    ids.count c = 1 →
    ws.find? (fun x => x.kod == c) = some w →
    create_stocksAux ws ids = some (out, rest) →
    ∃ st, resolveCount w.kolichestvo = some st ∧
      out.filter (fun s => s.offer_id == c) = [⟨c, st⟩] ∧ c ∉ rest := by
  intro ws
  induction ws with
  | nil =>
    intro ids out rest c w _ hfind _
    simp [List.find?] at hfind
  | cons w' ws ih =>
    intro ids out rest c w hcount hfind h
    simp only [create_stocksAux] at h
    by_cases hkod : w'.kod = c
    · have hw : w = w' := by
        rw [List.find?_cons_of_pos _ (by simpa using hkod)] at hfind
        exact (Option.some.injEq _ _ ▸ hfind).symm
      subst hw
      have hmem : w.kod ∈ ids := by
        rw [hkod]
        exact List.count_pos_iff.mp (by omega)
      rw [if_pos hmem] at h
      cases hr : resolveCount w.kolichestvo with
      | none => rw [hr] at h; cases h
      | some st =>
        rw [hr] at h
        cases ha : create_stocksAux ws (ids.erase w.kod) with
        | none => rw [ha] at h; cases h
        | some p =>
          obtain ⟨out', rest'⟩ := p
          rw [ha] at h
          simp only [Option.some.injEq, Prod.mk.injEq] at h
          obtain ⟨h1, h2⟩ := h
          subst h1; subst h2
          have hczero : c ∉ ids.erase w.kod := by
            rw [hkod]
            intro hbad
            have := List.count_erase_self c ids
            have hpos := List.count_pos_iff.mpr hbad
            omega
          have hperm := create_stocksAux_perm ws _ _ _ ha
          have hnc1 : c ∉ out'.map Stock.offer_id := fun hb =>
            hczero (hperm.subset (List.mem_append_left _ hb))
          have hfil : out'.filter (fun s => s.offer_id == c) = [] := by
            rw [List.filter_eq_nil_iff]
            intro s hs hbad
            exact hnc1 (List.mem_map.mpr ⟨s, hs, by simpa using hbad⟩)
          refine ⟨st, rfl, ?_, ?_⟩
          · simp [List.filter_cons, hkod, hfil]
          · exact fun hbad => hczero (hperm.subset (List.mem_append_right _ hbad))
    · have hfind' : ws.find? (fun x => x.kod == c) = some w := by
        rwa [List.find?_cons_of_neg _ (by simpa using hkod)] at hfind
      by_cases hmem : w'.kod ∈ ids
      · rw [if_pos hmem] at h
        cases hr : resolveCount w'.kolichestvo with
        | none => rw [hr] at h; cases h
        | some st =>
          rw [hr] at h
          cases ha : create_stocksAux ws (ids.erase w'.kod) with
          | none => rw [ha] at h; cases h
          | some p =>
            obtain ⟨out', rest'⟩ := p
            rw [ha] at h
            simp only [Option.some.injEq, Prod.mk.injEq] at h
            obtain ⟨h1, h2⟩ := h
            subst h1; subst h2
            have hcount' : (ids.erase w'.kod).count c = 1 := by
              rw [List.count_erase_of_ne (Ne.symm hkod)]
              exact hcount
            obtain ⟨st', hres, hfilter, hrest⟩ := ih _ _ _ c w hcount' hfind' ha
            refine ⟨st', hres, ?_, hrest⟩
            rw [List.filter_cons]
            simp only [show ((Stock.mk w'.kod st).offer_id == c) = false by simpa using hkod]
            exact hfilter
      · rw [if_neg hmem] at h
        exact ih _ _ _ c w hcount hfind' h

end seller

/-- The two `create_stocks` matching loops are the same algorithm: under the
identifier-and-counts projection their results agree, and they deplete
`offer_ids` identically. -/
theorem create_stocksAux_corr (wh date : String) :
    ∀ (ws : List SupplierRecord) (ids : List String),
    (market.create_stocksAux wh date ws ids).map (fun p => (p.1.map market.proj, p.2))
      = (seller.create_stocksAux ws ids).map (fun p => (p.1.map seller.proj, p.2)) := by
  intro ws
  induction ws with
  | nil =>
    intro ids
    simp [market.create_stocksAux, seller.create_stocksAux]
  | cons w ws ih =>
    intro ids
    simp only [market.create_stocksAux, seller.create_stocksAux]
    by_cases hmem : w.kod ∈ ids
    · rw [if_pos hmem, if_pos hmem]
      cases hr : resolveCount w.kolichestvo with
      | none => simp
      | some st =>
        have hih := ih (ids.erase w.kod)
        cases ha : seller.create_stocksAux ws (ids.erase w.kod) with
        | none =>
          rw [ha] at hih
          cases hm : market.create_stocksAux wh date ws (ids.erase w.kod) with
          | none => simp
          | some p => rw [hm] at hih; simp at hih
        | some p =>
          obtain ⟨out', rest'⟩ := p
          rw [ha] at hih
          cases hm : market.create_stocksAux wh date ws (ids.erase w.kod) with
          | none => rw [hm] at hih; simp at hih
          | some q =>
            obtain ⟨mout', mrest'⟩ := q
            rw [hm] at hih
            simp only [Option.map_some', Option.some.injEq, Prod.mk.injEq] at hih
            obtain ⟨hmap, hrest⟩ := hih
            simp [hmap, hrest, market.proj, seller.proj]
    · rw [if_neg hmem, if_neg hmem]
      exact ih ids

/-- Correspondence at the `create_stocksFull` level: the zero-fill phase
also projects identically. -/
theorem create_stocksFull_corr (wh date : String) (ws : List SupplierRecord)
    (ids : List String) :
    (market.create_stocksFull ws ids wh date).map (fun p => (p.1.map market.proj, p.2))
      = (seller.create_stocksFull ws ids).map (fun p => (p.1.map seller.proj, p.2)) := by
  have hcorr := create_stocksAux_corr wh date ws ids
  simp only [market.create_stocksFull, seller.create_stocksFull]
  cases ha : seller.create_stocksAux ws ids with
  | none =>
    rw [ha] at hcorr
    cases hm : market.create_stocksAux wh date ws ids with
    | none => simp
    | some p => rw [hm] at hcorr; simp at hcorr
  | some p =>
    obtain ⟨out, rest⟩ := p
    rw [ha] at hcorr
    cases hm : market.create_stocksAux wh date ws ids with
    | none => rw [hm] at hcorr; simp at hcorr
    | some q =>
      obtain ⟨mout, mrest⟩ := q
      rw [hm] at hcorr
      simp only [Option.map_some', Option.some.injEq, Prod.mk.injEq] at hcorr
      obtain ⟨hmap, hrest⟩ := hcorr
      simp [hmap, hrest, market.proj, seller.proj]

namespace market

/-- Every record built by the Yandex matching loop carries the given
warehouse id and a single `"FIT"` item dated with the given timestamp. -/
theorem create_stocksAux_shape (wh date : String) :
    ∀ (ws : List SupplierRecord) (ids out rest : _),
    create_stocksAux wh date ws ids = some (out, rest) →
    ∀ s ∈ out, s.warehouseId = wh ∧ ∃ cnt, s.items = [⟨cnt, "FIT", date⟩] := by
  intro ws
  induction ws with
  | nil =>
    intro ids out rest h
    simp only [create_stocksAux, Option.some.injEq, Prod.mk.injEq] at h
    obtain ⟨h1, _⟩ := h
    subst h1
    intro s hs
    cases hs
  | cons w ws ih =>
    intro ids out rest h
    simp only [create_stocksAux] at h
    by_cases hmem : w.kod ∈ ids
    · rw [if_pos hmem] at h
      cases hr : resolveCount w.kolichestvo with
      | none => rw [hr] at h; cases h
      | some st =>
        rw [hr] at h
        cases ha : create_stocksAux wh date ws (ids.erase w.kod) with
        | none => rw [ha] at h; cases h
        | some p =>
          obtain ⟨out', rest'⟩ := p
          rw [ha] at h
          simp only [Option.some.injEq, Prod.mk.injEq] at h
          obtain ⟨h1, _⟩ := h
          subst h1
          intro s hs
          rcases List.mem_cons.mp hs with hs | hs
          · subst hs
            exact ⟨rfl, st, rfl⟩
          · exact ih _ _ _ ha s hs
    · rw [if_neg hmem] at h
      intro s hs
      exact ih _ _ _ h s hs

/-- Every record returned by the Yandex `create_stocks` (matching phase and
zero-fill alike) carries the warehouse id and a single dated `"FIT"` item. -/
theorem create_stocksFull_shape (wh date : String) (ws : List SupplierRecord)
    (ids out rest : _) (h : create_stocksFull ws ids wh date = some (out, rest)) :
    ∀ s ∈ out, s.warehouseId = wh ∧ ∃ cnt, s.items = [⟨cnt, "FIT", date⟩] := by
  simp only [create_stocksFull] at h
  cases ha : create_stocksAux wh date ws ids with
  | none => rw [ha] at h; cases h
  | some p =>
    obtain ⟨out', rest'⟩ := p
    rw [ha] at h
    simp only [Option.some.injEq, Prod.mk.injEq] at h
    obtain ⟨h1, _⟩ := h
    subst h1
    intro s hs
    rcases List.mem_append.mp hs with hs | hs
    · exact create_stocksAux_shape wh date ws ids out' rest' ha s hs
    · obtain ⟨i, _, hi⟩ := List.mem_map.mp hs
      subst hi
      exact ⟨rfl, 0, rfl⟩

end market

namespace seller

theorem create_stocksFull_eq (ws : List SupplierRecord) (ids out rest : _)
    (h : create_stocksFull ws ids = some (out, rest)) :
    ∃ aout, create_stocksAux ws ids = some (aout, rest) ∧
      out = aout ++ rest.map (fun i => ⟨i, 0⟩) := by
  simp only [create_stocksFull] at h
  cases ha : create_stocksAux ws ids with
  | none => rw [ha] at h; cases h
  | some p =>
    obtain ⟨aout, rest'⟩ := p
    rw [ha] at h
    simp only [Option.some.injEq, Prod.mk.injEq] at h
    obtain ⟨h1, h2⟩ := h
    subst h2
    exact ⟨aout, rfl, h1.symm⟩

theorem create_stocksFull_ids_perm (ws : List SupplierRecord) (ids out rest : _)
    (h : create_stocksFull ws ids = some (out, rest)) :
    (out.map Stock.offer_id).Perm ids := by
  obtain ⟨aout, ha, hout⟩ := create_stocksFull_eq ws ids out rest h
  subst hout
  have : (aout ++ rest.map fun i => Stock.mk i 0).map Stock.offer_id
      = aout.map Stock.offer_id ++ rest := by
    simp [List.map_map, Function.comp_def]
  rw [this]
  exact create_stocksAux_perm ws ids aout rest ha

end seller

/-- C1: the claim as frozen is false on the code: `create_stocks` treats the
marketplace identifiers as a Python list, not a set, so when the incoming
list contains the same identifier twice the zero-fill phase emits two stock
records for it. With an empty feed and the list `["A", "A"]`, the Ozon
`create_stocks` outputs the identifier `"A"` twice. -/
theorem stock_coverage_counterexample :
    (seller.create_stocks [] ["A", "A"]).map (fun out => out.map seller.Stock.offer_id)
      = some ["A", "A"]
    ∧ ¬ (["A", "A"] : List String).Nodup := by
  constructor
  · rfl
  · decide

/-- C1 (amended): for every supplier feed and every duplicate-free
offer-identifier list, whenever stock reconciliation completes (no quantity
parse error), the identifiers of the stock-update output are a permutation
of the original offer-identifier list — so their set is exactly the
original set — and no identifier appears twice; this holds for both the
Ozon and the Yandex variant of `create_stocks`. -/
theorem stock_coverage_amended :
    (∀ (ws : List SupplierRecord) (ids : List String) (out : List seller.Stock),
      ids.Nodup → seller.create_stocks ws ids = some out →
      (out.map seller.Stock.offer_id).Perm ids ∧ (out.map seller.Stock.offer_id).Nodup)
    ∧ (∀ (ws : List SupplierRecord) (ids : List String) (wh date : String)
        (out : List market.Stock),
      ids.Nodup → market.create_stocks ws ids wh date = some out →
      (out.map market.Stock.sku).Perm ids ∧ (out.map market.Stock.sku).Nodup) := by
  constructor
  · intro ws ids out hnd h
    simp only [seller.create_stocks] at h
    cases hf : seller.create_stocksFull ws ids with
    | none => rw [hf] at h; cases h
    | some p =>
      obtain ⟨out', rest⟩ := p
      rw [hf] at h
      simp only [Option.map_some', Option.some.injEq] at h
      subst h
      have hperm := seller.create_stocksFull_ids_perm ws ids out' rest hf
      exact ⟨hperm, hperm.symm.nodup hnd⟩
  · intro ws ids wh date out hnd h
    simp only [market.create_stocks] at h
    cases hf : market.create_stocksFull ws ids wh date with
    | none => rw [hf] at h; cases h
    | some p =>
      obtain ⟨out', rest⟩ := p
      rw [hf] at h
      simp only [Option.map_some', Option.some.injEq] at h
      subst h
      have hcorr := create_stocksFull_corr wh date ws ids
      rw [hf] at hcorr
      cases hsf : seller.create_stocksFull ws ids with
      | none => rw [hsf] at hcorr; simp at hcorr
      | some q =>
        obtain ⟨sout, srest⟩ := q
        rw [hsf] at hcorr
        simp only [Option.map_some', Option.some.injEq, Prod.mk.injEq] at hcorr
        obtain ⟨hmap, _⟩ := hcorr
        have hsku : out'.map market.Stock.sku = sout.map seller.Stock.offer_id := by
          have h1 : (out'.map market.proj).map Prod.fst = (sout.map seller.proj).map Prod.fst := by
            rw [hmap]
          simpa [List.map_map, Function.comp, market.proj, seller.proj] using h1
        rw [hsku]
        have hperm := seller.create_stocksFull_ids_perm ws ids sout srest hsf
        exact ⟨hperm, hperm.symm.nodup hnd⟩

/-- Instantiation of `stock_coverage_amended` at a concrete input. -/
theorem stock_coverage_amended_witness :
    (["123", "456"] : List String).Nodup
    ∧ seller.create_stocks [⟨"123", ">10", "p"⟩] ["123", "456"]
        = some [⟨"123", 100⟩, ⟨"456", 0⟩]
    ∧ (([⟨"123", 100⟩, ⟨"456", 0⟩] : List seller.Stock).map seller.Stock.offer_id).Perm
        ["123", "456"]
    ∧ (([⟨"123", 100⟩, ⟨"456", 0⟩] : List seller.Stock).map seller.Stock.offer_id).Nodup := by
  refine ⟨by decide, by rfl, ?_⟩
  have h := stock_coverage_amended.1 [⟨"123", ">10", "p"⟩] ["123", "456"]
    [⟨"123", 100⟩, ⟨"456", 0⟩] (by decide) (by rfl)
  exact h

/-- C4: for every supplier feed and offer-identifier list, whenever stock
reconciliation completes, every marketplace identifier not matched by any
code of any feed record appears in the stock-update output with a count of
exactly 0 — and every output record bearing that identifier carries count
0 — in both the Ozon and the Yandex variant of `create_stocks`. -/
theorem stock_zero_fill :
    (∀ (ws : List SupplierRecord) (ids : List String) (out : List seller.Stock) (c : String),
      seller.create_stocks ws ids = some out → c ∈ ids → (∀ w ∈ ws, w.kod ≠ c) →
      seller.Stock.mk c 0 ∈ out ∧ ∀ s ∈ out, s.offer_id = c → s.stock = 0)
    ∧ (∀ (ws : List SupplierRecord) (ids : List String) (wh date : String)
        (out : List market.Stock) (c : String),
      market.create_stocks ws ids wh date = some out → c ∈ ids → (∀ w ∈ ws, w.kod ≠ c) →
      market.Stock.mk c wh [⟨0, "FIT", date⟩] ∈ out ∧
      ∀ s ∈ out, s.sku = c → s.items.map market.StockItem.count = [0]) := by
  have seller_part : ∀ (ws : List SupplierRecord) (ids : List String)
      (out : List seller.Stock) (c : String),
      seller.create_stocks ws ids = some out → c ∈ ids → (∀ w ∈ ws, w.kod ≠ c) →
      seller.Stock.mk c 0 ∈ out ∧ ∀ s ∈ out, s.offer_id = c → s.stock = 0 := by
    intro ws ids out c h hc hnone
    simp only [seller.create_stocks] at h
    cases hf : seller.create_stocksFull ws ids with
    | none => rw [hf] at h; cases h
    | some p =>
      obtain ⟨out', rest⟩ := p
      rw [hf] at h
      simp only [Option.map_some', Option.some.injEq] at h
      subst h
      obtain ⟨aout, ha, hout⟩ := seller.create_stocksFull_eq ws ids out' rest hf
      subst hout
      have hcrest : c ∈ rest := seller.create_stocksAux_unmatched ws ids aout rest ha c hc hnone
      constructor
      · exact List.mem_append_right _ (List.mem_map.mpr ⟨c, hcrest, rfl⟩)
      · intro s hs hsc
        rcases List.mem_append.mp hs with hs | hs
        · obtain ⟨w, hw, hcode, _⟩ := seller.create_stocksAux_out_codes ws ids aout rest ha s hs
          exact absurd (hcode ▸ hsc) (hnone w hw)
        · obtain ⟨i, _, hi⟩ := List.mem_map.mp hs
          subst hi
          rfl
  refine ⟨seller_part, ?_⟩
  intro ws ids wh date out c h hc hnone
  simp only [market.create_stocks] at h
  cases hf : market.create_stocksFull ws ids wh date with
  | none => rw [hf] at h; cases h
  | some p =>
    obtain ⟨out', rest⟩ := p
    rw [hf] at h
    simp only [Option.map_some', Option.some.injEq] at h
    subst h
    have hcorr := create_stocksFull_corr wh date ws ids
    rw [hf] at hcorr
    cases hsf : seller.create_stocksFull ws ids with
    | none => rw [hsf] at hcorr; simp at hcorr
    | some q =>
      obtain ⟨sout, srest⟩ := q
      rw [hsf] at hcorr
      simp only [Option.map_some', Option.some.injEq, Prod.mk.injEq] at hcorr
      obtain ⟨hmap, _⟩ := hcorr
      have hsell : seller.create_stocks ws ids = some sout := by
        simp [seller.create_stocks, hsf]
      obtain ⟨hmem0, hall0⟩ := seller_part ws ids sout c hsell hc hnone
      have hshape := market.create_stocksFull_shape wh date ws ids out' rest hf
      constructor
      · have : seller.proj (seller.Stock.mk c 0) ∈ sout.map seller.proj :=
          List.mem_map.mpr ⟨_, hmem0, rfl⟩
        rw [← hmap] at this
        obtain ⟨m, hm, hpm⟩ := List.mem_map.mp this
        obtain ⟨hwh, cnt, hitems⟩ := hshape m hm
        simp only [market.proj, seller.proj, Prod.mk.injEq, hitems] at hpm
        obtain ⟨hsku, hcnt⟩ := hpm
        simp only [List.map_cons, List.map_nil, List.cons.injEq] at hcnt
        have hm' : m = market.Stock.mk c wh [⟨0, "FIT", date⟩] := by
          cases m with
          | mk sku wid its =>
            simp only at hsku hwh hitems
            subst hsku; subst hwh; subst hitems
            simp [hcnt.1]
        rw [← hm']
        exact hm
      · intro s hs hsku
        have : market.proj s ∈ out'.map market.proj := List.mem_map.mpr ⟨_, hs, rfl⟩
        rw [hmap] at this
        obtain ⟨t, ht, hpt⟩ := List.mem_map.mp this
        simp only [market.proj, seller.proj, Prod.mk.injEq] at hpt
        obtain ⟨hid, hcounts⟩ := hpt
        have := hall0 t ht (by rw [hid, hsku])
        rw [← hcounts, this]

/-- Instantiation of `stock_zero_fill` at a concrete input: identifier
`"456"` is absent from the feed and is zero-filled. -/
theorem stock_zero_fill_witness :
    seller.create_stocks [⟨"123", "5", "p"⟩] ["123", "456"]
      = some [⟨"123", 5⟩, ⟨"456", 0⟩]
    ∧ ("456" : String) ∈ (["123", "456"] : List String)
    ∧ seller.Stock.mk "456" 0 ∈ ([⟨"123", 5⟩, ⟨"456", 0⟩] : List seller.Stock) := by
  refine ⟨by rfl, by decide, ?_⟩
  exact (stock_zero_fill.1 [⟨"123", "5", "p"⟩] ["123", "456"] [⟨"123", 5⟩, ⟨"456", 0⟩]
    "456" (by rfl) (by decide) (by decide)).1

/-- C10: if a code occurs exactly once in the offer-identifier list and the
feed contains at least one record with that code (in particular when it
contains duplicates), `create_stocks` emits exactly one stock update for
that code, carrying the quantity of the first matching feed record; every
later duplicate fails the membership test because the first match removed
the code. Both variants. -/
theorem duplicate_feed_first_match :
    (∀ (ws : List SupplierRecord) (ids : List String) (out : List seller.Stock)
      (c : String) (w : SupplierRecord),
      ids.count c = 1 →
      ws.find? (fun x => x.kod == c) = some w →
      seller.create_stocks ws ids = some out →
      ∃ st, resolveCount w.kolichestvo = some st ∧
        out.filter (fun s => s.offer_id == c) = [⟨c, st⟩])
    ∧ (∀ (ws : List SupplierRecord) (ids : List String) (wh date : String)
      (out : List market.Stock) (c : String) (w : SupplierRecord),
      ids.count c = 1 →
      ws.find? (fun x => x.kod == c) = some w →
      market.create_stocks ws ids wh date = some out →
      ∃ st, resolveCount w.kolichestvo = some st ∧
        out.filter (fun s => s.sku == c) = [⟨c, wh, [⟨st, "FIT", date⟩]⟩]) := by
  have seller_part : ∀ (ws : List SupplierRecord) (ids : List String) (out : List seller.Stock)
      (c : String) (w : SupplierRecord),
      ids.count c = 1 →
      ws.find? (fun x => x.kod == c) = some w →
      seller.create_stocks ws ids = some out →
      ∃ st, resolveCount w.kolichestvo = some st ∧
        out.filter (fun s => s.offer_id == c) = [⟨c, st⟩] := by
    intro ws ids out c w hcount hfind h
    simp only [seller.create_stocks] at h
    cases hf : seller.create_stocksFull ws ids with
    | none => rw [hf] at h; cases h
    | some p =>
      obtain ⟨out', rest⟩ := p
      rw [hf] at h
      simp only [Option.map_some', Option.some.injEq] at h
      subst h
      obtain ⟨aout, ha, hout⟩ := seller.create_stocksFull_eq ws ids out' rest hf
      subst hout
      obtain ⟨st, hres, hfil, hcrest⟩ :=
        seller.create_stocksAux_first_match ws ids aout rest c w hcount hfind ha
      refine ⟨st, hres, ?_⟩
      rw [List.filter_append, hfil]
      have hzero : (rest.map fun i => seller.Stock.mk i 0).filter
          (fun s => s.offer_id == c) = [] := by
        rw [List.filter_eq_nil_iff]
        intro s hs hbad
        obtain ⟨i, hi, hie⟩ := List.mem_map.mp hs
        subst hie
        simp only [beq_iff_eq] at hbad
        exact hcrest (hbad ▸ hi)
      rw [hzero, List.append_nil]
  refine ⟨seller_part, ?_⟩
  intro ws ids wh date out c w hcount hfind h
  simp only [market.create_stocks] at h
  cases hf : market.create_stocksFull ws ids wh date with
  | none => rw [hf] at h; cases h
  | some p =>
    obtain ⟨out', rest⟩ := p
    rw [hf] at h
    simp only [Option.map_some', Option.some.injEq] at h
    subst h
    have hcorr := create_stocksFull_corr wh date ws ids
    rw [hf] at hcorr
    cases hsf : seller.create_stocksFull ws ids with
    | none => rw [hsf] at hcorr; simp at hcorr
    | some q =>
      obtain ⟨sout, srest⟩ := q
      rw [hsf] at hcorr
      simp only [Option.map_some', Option.some.injEq, Prod.mk.injEq] at hcorr
      obtain ⟨hmap, _⟩ := hcorr
      have hsell : seller.create_stocks ws ids = some sout := by
        simp [seller.create_stocks, hsf]
      obtain ⟨st, hres, hsfil⟩ := seller_part ws ids sout c w hcount hfind hsell
      refine ⟨st, hres, ?_⟩
      have hmfil : (out'.filter (fun s => s.sku == c)).map market.proj
          = [(c, [st])] := by
        have h1 : (out'.map market.proj).filter (fun q => q.1 == c)
            = (out'.filter (fun s => s.sku == c)).map market.proj := by
          rw [List.filter_map]
          rfl
        have h2 : (sout.map seller.proj).filter (fun q => q.1 == c)
            = (sout.filter (fun s => s.offer_id == c)).map seller.proj := by
          rw [List.filter_map]
          rfl
        rw [← h1, hmap, h2, hsfil]
        rfl
      have hshape := market.create_stocksFull_shape wh date ws ids out' rest hf
      cases hm : out'.filter (fun s => s.sku == c) with
      | nil => rw [hm] at hmfil; cases hmfil
      | cons m t =>
        rw [hm] at hmfil
        simp only [List.map_cons, List.cons.injEq] at hmfil
        obtain ⟨hpm, ht⟩ := hmfil
        have ht' : t = [] := List.map_eq_nil_iff.mp ht
        subst ht'
        have hmmem : m ∈ out' := List.mem_of_mem_filter (hm ▸ List.mem_cons_self m [])
        obtain ⟨hwh, cnt, hitems⟩ := hshape m hmmem
        simp only [market.proj, hitems, Prod.mk.injEq, List.map_cons, List.map_nil,
          List.cons.injEq] at hpm
        obtain ⟨hsku, hcnt, _⟩ := hpm
        have hm' : m = market.Stock.mk c wh [⟨st, "FIT", date⟩] := by
          cases m with
          | mk sku wid its =>
            simp only at hsku hwh hitems
            subst hsku; subst hwh; subst hitems
            simp [hcnt]
        rw [hm']

/-- Instantiation of `duplicate_feed_first_match`: the feed lists code
`"123"` twice with different quantities; only the first record is emitted. -/
theorem duplicate_feed_first_match_witness :
    (["123"] : List String).count "123" = 1
    ∧ seller.create_stocks [⟨"123", "5", "p"⟩, ⟨"123", "7", "q"⟩] ["123"]
        = some [⟨"123", 5⟩]
    ∧ ([⟨"123", 5⟩] : List seller.Stock).filter (fun s => s.offer_id == "123")
        = [⟨"123", 5⟩] := by
  refine ⟨by decide, by rfl, ?_⟩
  obtain ⟨st, hres, hfil⟩ := duplicate_feed_first_match.1
    [⟨"123", "5", "p"⟩, ⟨"123", "7", "q"⟩] ["123"] [⟨"123", 5⟩] "123" ⟨"123", "5", "p"⟩
    (by decide) (by rfl) (by rfl)
  have hst : st = 5 := by
    have : resolveCount "5" = some 5 := by decide
    rw [this] at hres
    exact (Option.some.injEq _ _ ▸ hres.symm)
  rw [hst] at hfil
  exact hfil

theorem char_isDigit_not_isWhitespace (c : Char) (h : c.isDigit = true) :
    c.isWhitespace = false := by
  by_contra hw
  simp only [Bool.not_eq_false] at hw
  simp only [Char.isWhitespace, Bool.or_eq_true, decide_eq_true_eq] at hw
  rcases hw with ((h1 | h1) | h1) | h1 <;> (subst h1; exact absurd h (by decide))

theorem dropWhile_isWhitespace_of_digits (l : List Char) (h : ∀ c ∈ l, c.isDigit = true) :
    l.dropWhile Char.isWhitespace = l := by
  cases l with
  | nil => rfl
  | cons c cs =>
    rw [List.dropWhile_cons]
    simp [char_isDigit_not_isWhitespace c (h c (List.mem_cons_self c cs))]

theorem pyStrip_digits (l : List Char) (h : ∀ c ∈ l, c.isDigit = true) : pyStrip l = l := by
  unfold pyStrip
  rw [dropWhile_isWhitespace_of_digits l h,
    dropWhile_isWhitespace_of_digits l.reverse (fun c hc => h c (List.mem_reverse.mp hc)),
    List.reverse_reverse]

theorem pyInt_digits (l : List Char) (hne : l ≠ []) (h : ∀ c ∈ l, c.isDigit = true) :
    ∃ n : Nat, pyInt ⟨l⟩ = some ((n : Nat) : Int) := by
  have hs : pyStrip (String.mk l).data = l := pyStrip_digits l h
  cases l with
  | nil => exact absurd rfl hne
  | cons c cs =>
    have hc : c.isDigit = true := h c (List.mem_cons_self c cs)
    have hcm : c ≠ '-' := fun e => by rw [e] at hc; exact absurd hc (by decide)
    have hcp : c ≠ '+' := fun e => by rw [e] at hc; exact absurd hc (by decide)
    have hval : pyDigitsVal (c :: cs)
        = some ((c :: cs).foldl (fun acc d => acc * 10 + (d.toNat - 48)) 0) := by
      unfold pyDigitsVal
      rw [if_pos]
      exact ⟨by simp, by simpa [List.all_eq_true] using h⟩
    refine ⟨(c :: cs).foldl (fun acc d => acc * 10 + (d.toNat - 48)) 0, ?_⟩
    simp only [pyInt, hs]
    rw [if_neg hcm, if_neg hcp, hval]
    rfl

theorem price_conversion_all_digits (s : String) :
    ∀ c ∈ (price_conversion s).data, c.isDigit = true := by
  intro c hc
  exact (List.mem_filter.mp hc).2

namespace seller

theorem create_prices_eq (ws : List SupplierRecord) (ids : List String) :
    create_prices ws ids = (ws.filter (fun w => decide (w.kod ∈ ids))).map mkPrice := by
  induction ws with
  | nil => rfl
  | cons w ws ih =>
    simp only [create_prices, List.filterMap_cons, List.filter_cons] at ih ⊢
    by_cases hmem : w.kod ∈ ids
    · simp [hmem, ih, create_prices]
    · simp [hmem, ih, create_prices]

end seller

namespace market

theorem create_prices_none : ∀ (ws : List SupplierRecord) (ids : List String),
    (∃ w ∈ ws, w.kod ∈ ids ∧ price_conversion w.tsena = "") →
    create_prices ws ids = none := by
  intro ws
  induction ws with
  | nil =>
    intro ids h
    obtain ⟨w, hw, _⟩ := h
    cases hw
  | cons w' ws ih =>
    intro ids h
    obtain ⟨w, hw, hmem, hempty⟩ := h
    simp only [create_prices]
    rcases List.mem_cons.mp hw with hw | hw
    · subst hw
      rw [if_pos hmem, hempty]
      rfl
    · by_cases hmem' : w'.kod ∈ ids
      · rw [if_pos hmem']
        cases hp : pyInt (price_conversion w'.tsena) with
        | none => rfl
        | some v => rw [ih ids ⟨w, hw, hmem, hempty⟩]
      · rw [if_neg hmem']
        exact ih ids ⟨w, hw, hmem, hempty⟩

theorem create_prices_some : ∀ (ws : List SupplierRecord) (ids : List String),
    (∀ w ∈ ws, w.kod ∈ ids → price_conversion w.tsena ≠ "") →
    ∃ ps, create_prices ws ids = some ps ∧
      ps.map Price.id = (ws.filter (fun w => decide (w.kod ∈ ids))).map SupplierRecord.kod := by
  intro ws
  induction ws with
  | nil =>
    intro ids _
    exact ⟨[], rfl, rfl⟩
  | cons w ws ih =>
    intro ids h
    obtain ⟨ps, hps, hmap⟩ := ih ids (fun w' hw' => h w' (List.mem_cons_of_mem _ hw'))
    by_cases hmem : w.kod ∈ ids
    · have hne : price_conversion w.tsena ≠ "" := h w (List.mem_cons_self _ _) hmem
      have hdata : (price_conversion w.tsena).data ≠ [] := by
        intro hbad
        exact hne (String.ext (by rw [hbad]))
      obtain ⟨n, hn⟩ := pyInt_digits (price_conversion w.tsena).data hdata
        (price_conversion_all_digits w.tsena)
      have hmk : String.mk (price_conversion w.tsena).data = price_conversion w.tsena := rfl
      rw [hmk] at hn
      refine ⟨⟨w.kod, (n : Int), "RUR"⟩ :: ps, ?_, ?_⟩
      · simp only [create_prices, if_pos hmem, hn, hps]
      · have hfil : (w :: ws).filter (fun w => decide (w.kod ∈ ids))
            = w :: ws.filter (fun w => decide (w.kod ∈ ids)) := by
          simp [List.filter_cons, hmem]
        rw [hfil, List.map_cons, List.map_cons, hmap]
    · refine ⟨ps, ?_, ?_⟩
      · simp only [create_prices, if_neg hmem, hps]
      · have hfil : (w :: ws).filter (fun w => decide (w.kod ∈ ids))
            = ws.filter (fun w => decide (w.kod ∈ ids)) := by
          simp [List.filter_cons, hmem]
        rw [hfil, hmap]

end market

/-- C2: the claim as frozen is false on the code: a supplier record whose
code is listed but whose normalized price is unusable (empty) is NOT
silently skipped. The Ozon `create_prices` emits a record with an empty
price string, and the Yandex `create_prices` raises ValueError from
`int("")`. -/
theorem price_skip_counterexample :
    seller.create_prices [⟨"A", "5", "Нет цены"⟩] ["A"]
      = [⟨"UNKNOWN", "RUB", "A", "0", ""⟩]
    ∧ market.create_prices [⟨"A", "5", "Нет цены"⟩] ["A"] = none := by
  exact ⟨rfl, rfl⟩

/-- C2 (amended): in both `create_prices` variants a record whose code is
not in the offer-identifier set is silently skipped (no output, no error),
but a listed record with an unusable normalized price is not skipped: the
Ozon variant always emits it (with whatever string `price_conversion`
yields, possibly empty), and the Yandex variant raises ValueError on an
empty normalized price, while emitting exactly the listed records when
every listed price is usable. -/
theorem price_skip_amended :
    (∀ (ws : List SupplierRecord) (ids : List String),
      seller.create_prices ws ids
        = (ws.filter (fun w => decide (w.kod ∈ ids))).map seller.mkPrice)
    ∧ (∀ (ws : List SupplierRecord) (ids : List String),
      (∃ w ∈ ws, w.kod ∈ ids ∧ price_conversion w.tsena = "") →
      market.create_prices ws ids = none)
    ∧ (∀ (ws : List SupplierRecord) (ids : List String),
      (∀ w ∈ ws, w.kod ∈ ids → price_conversion w.tsena ≠ "") →
      ∃ ps, market.create_prices ws ids = some ps ∧
        ps.map market.Price.id
          = (ws.filter (fun w => decide (w.kod ∈ ids))).map SupplierRecord.kod) :=
  ⟨seller.create_prices_eq, market.create_prices_none, market.create_prices_some⟩

/-- Instantiation of `price_skip_amended` at concrete inputs. -/
theorem price_skip_amended_witness :
    market.create_prices [⟨"A", "5", "Нет цены"⟩] ["A"] = none
    ∧ ∃ ps, market.create_prices [⟨"B", "1", "5.00"⟩] ["B"] = some ps ∧
        ps.map market.Price.id = ["B"] := by
  constructor
  · exact price_skip_amended.2.1 [⟨"A", "5", "Нет цены"⟩] ["A"]
      ⟨⟨"A", "5", "Нет цены"⟩, by decide, by decide, by rfl⟩
  · obtain ⟨ps, h1, h2⟩ := price_skip_amended.2.2 [⟨"B", "1", "5.00"⟩] ["B"]
      (by intro w hw _; rcases List.mem_cons.mp hw with hw | hw
          · subst hw; decide
          · cases hw)
    refine ⟨ps, h1, ?_⟩
    rw [h2]
    rfl

/-- C5: the quantity rule of stock reconciliation maps the raw string
`">10"` to 100, `"1"` to 0, any other string Python `int` accepts to its
integer value (e.g. `"7"` to 7), and on any other string (e.g. `"abc"`)
the ValueError is not caught inside reconciliation: `create_stocks` of
either variant fails as a whole when a listed record carries such a
quantity. -/
theorem quantity_mapping :
    resolveCount ">10" = some 100
    ∧ resolveCount "1" = some 0
    ∧ resolveCount "7" = some 7
    ∧ resolveCount "abc" = none
    ∧ (∀ (s : String) (n : Int), s ≠ ">10" → s ≠ "1" → pyInt s = some n →
        resolveCount s = some n)
    ∧ (∀ (w : SupplierRecord) (ws : List SupplierRecord) (ids : List String),
        w.kod ∈ ids → resolveCount w.kolichestvo = none →
        seller.create_stocks (w :: ws) ids = none)
    ∧ (∀ (w : SupplierRecord) (ws : List SupplierRecord) (ids : List String)
        (wh date : String),
        w.kod ∈ ids → resolveCount w.kolichestvo = none →
        market.create_stocks (w :: ws) ids wh date = none) := by
  refine ⟨by decide, by decide, by decide, by decide, ?_, ?_, ?_⟩
  · intro s n h10 h1 hpy
    simp only [resolveCount, if_neg h10, if_neg h1]
    exact hpy
  · intro w ws ids hmem hres
    simp only [seller.create_stocks, seller.create_stocksFull, seller.create_stocksAux,
      if_pos hmem, hres]
    rfl
  · intro w ws ids wh date hmem hres
    simp only [market.create_stocks, market.create_stocksFull, market.create_stocksAux,
      if_pos hmem, hres]
    rfl

/-- Instantiation of `quantity_mapping` at concrete inputs: an unparsable
quantity on a listed record aborts both reconciliation variants. -/
theorem quantity_mapping_witness :
    seller.create_stocks [⟨"B", "abc", "p"⟩] ["B"] = none
    ∧ market.create_stocks [⟨"B", "abc", "p"⟩] ["B"] "W" "D" = none
    ∧ resolveCount "7" = some 7 := by
  refine ⟨?_, ?_, ?_⟩
  · exact quantity_mapping.2.2.2.2.2.1 ⟨"B", "abc", "p"⟩ [] ["B"] (by decide) (by decide)
  · exact quantity_mapping.2.2.2.2.2.2 ⟨"B", "abc", "p"⟩ [] ["B"] "W" "D" (by decide)
      (by decide)
  · exact quantity_mapping.2.2.2.2.1 "7" 7 (by decide) (by decide) (by decide)

theorem takeWhile_eq_self_of_all {α : Type} {p : α → Bool} :
    ∀ (l : List α), (∀ c ∈ l, p c = true) → l.takeWhile p = l := by
  intro l
  induction l with
  | nil => intro _; rfl
  | cons c cs ih =>
    intro h
    rw [List.takeWhile_cons, h c (List.mem_cons_self c cs)]
    rw [ih (fun d hd => h d (List.mem_cons_of_mem _ hd))]
    rfl

theorem takeWhile_append_of_all {α : Type} {p : α → Bool} :
    ∀ (l r : List α) (x : α), (∀ c ∈ l, p c = true) → p x = false →
    (l ++ x :: r).takeWhile p = l := by
  intro l
  induction l with
  | nil =>
    intro r x _ hx
    simp [List.takeWhile_cons, hx]
  | cons c cs ih =>
    intro r x h hx
    rw [List.cons_append, List.takeWhile_cons, h c (List.mem_cons_self c cs)]
    rw [ih r x (fun d hd => h d (List.mem_cons_of_mem _ hd)) hx]
    rfl

/-- C6: `price_conversion` keeps the segment of its input before the first
`.` (the whole input when there is no `.`) and strips every non-digit
character from it; in particular the string 5 990.00 rub (with an apostrophe as thousands separator) maps to `"5990"`,
`"1 299.99 руб."` maps to `"1299"`, and an input with no digits maps to
the empty string. -/
theorem price_normalization :
    (∀ s t : String, (∀ c ∈ s.data, c ≠ '.') →
      price_conversion (s ++ "." ++ t) = String.mk (s.data.filter (fun c => c.isDigit)))
    ∧ (∀ s : String, (∀ c ∈ s.data, c ≠ '.') →
      price_conversion s = String.mk (s.data.filter (fun c => c.isDigit)))
    ∧ price_conversion "5\x27990.00 руб." = "5990"
    ∧ price_conversion "1 299.99 руб." = "1299"
    ∧ price_conversion "Нет цены" = ""
    ∧ (∀ s : String, (∀ c ∈ s.data, c.isDigit = false) → price_conversion s = "") := by
  refine ⟨?_, ?_, by decide, by decide, by decide, ?_⟩
  · intro s t h
    have hdata : (s ++ "." ++ t).data = s.data ++ '.' :: t.data := by
      rw [String.data_append, String.data_append, List.append_assoc]
      rfl
    have hall : ∀ c ∈ s.data, (fun c => decide (c ≠ '.')) c = true := by
      intro c hc
      simpa using h c hc
    have hdot : (fun c => decide (c ≠ '.')) '.' = false := by decide
    show String.mk (((s ++ "." ++ t).data.takeWhile fun c => c ≠ '.').filter
      (fun c => c.isDigit)) = _
    rw [hdata, takeWhile_append_of_all s.data t.data '.' hall hdot]
  · intro s h
    have hall : ∀ c ∈ s.data, (fun c => decide (c ≠ '.')) c = true := by
      intro c hc
      simpa using h c hc
    show String.mk ((s.data.takeWhile fun c => c ≠ '.').filter (fun c => c.isDigit)) = _
    rw [takeWhile_eq_self_of_all s.data hall]
  · intro s h
    have : (s.data.takeWhile fun c => c ≠ '.').filter (fun c => c.isDigit) = [] := by
      rw [List.filter_eq_nil_iff]
      intro c hc hd
      have hcs : c ∈ s.data := (List.takeWhile_sublist _).subset hc
      rw [h c hcs] at hd
      cases hd
    show String.mk _ = ""
    rw [this]

/-- Instantiation of `price_normalization` at concrete inputs. -/
theorem price_normalization_witness :
    price_conversion ("12" ++ "." ++ "99") = "12"
    ∧ price_conversion "x7y" = "7"
    ∧ price_conversion "руб" = "" := by
  refine ⟨?_, ?_, ?_⟩
  · have h := price_normalization.1 "12" "99" (by decide)
    rw [h]
    rfl
  · have h := price_normalization.2.1 "x7y" (by decide)
    rw [h]
    rfl
  · exact price_normalization.2.2.2.2.2 "руб" (by decide)

theorem divide_nil {α : Type} (n : Nat) : divide ([] : List α) n = [] := by
  rw [divide]
  rfl

theorem divide_of_ne {α : Type} (lst : List α) (n : Nat) (hl : lst ≠ []) (hn : n ≠ 0) :
    divide lst n = lst.take n :: divide (lst.drop n) n := by
  rw [divide]
  rw [dif_neg]
  simp [List.isEmpty_iff, hl, hn]

theorem divide_join_fuel {α : Type} (n : Nat) (hn : 0 < n) :
    ∀ (fuel : Nat) (lst : List α), lst.length ≤ fuel → (divide lst n).flatten = lst := by
  intro fuel
  induction fuel with
  | zero =>
    intro lst hlen
    have h0 : lst = [] := List.length_eq_zero.mp (Nat.le_zero.mp hlen)
    subst h0
    rw [divide_nil]
    rfl
  | succ k ih =>
    intro lst hlen
    by_cases hl : lst = []
    · subst hl
      rw [divide_nil]
      rfl
    · rw [divide_of_ne lst n hl (Nat.pos_iff_ne_zero.mp hn)]
      show lst.take n ++ (divide (lst.drop n) n).flatten = lst
      rw [ih (lst.drop n) (by
        rw [List.length_drop]
        have := List.length_pos.mpr hl
        omega)]
      exact List.take_append_drop n lst

theorem divide_length_fuel {α : Type} (n : Nat) (hn : 0 < n) :
    ∀ (fuel : Nat) (lst : List α), lst.length ≤ fuel →
    (divide lst n).length = (lst.length + n - 1) / n := by
  intro fuel
  induction fuel with
  | zero =>
    intro lst hlen
    have h0 : lst = [] := List.length_eq_zero.mp (Nat.le_zero.mp hlen)
    subst h0
    rw [divide_nil]
    simp [Nat.div_eq_of_lt (by omega : n - 1 < n)]
  | succ k ih =>
    intro lst hlen
    by_cases hl : lst = []
    · subst hl
      rw [divide_nil]
      simp [Nat.div_eq_of_lt (by omega : n - 1 < n)]
    · have hL : 0 < lst.length := List.length_pos.mpr hl
      rw [divide_of_ne lst n hl (Nat.pos_iff_ne_zero.mp hn)]
      rw [List.length_cons]
      rw [ih (lst.drop n) (by rw [List.length_drop]; omega)]
      rw [List.length_drop]
      have hsplit : lst.length + n - 1 = (lst.length - 1) + n := by omega
      rw [hsplit, Nat.add_div_right _ hn]
      by_cases hLn : lst.length ≤ n
      · have h1 : lst.length - n = 0 := by omega
        rw [h1]
        rw [Nat.div_eq_of_lt (by omega : 0 + n - 1 < n)]
        rw [Nat.div_eq_of_lt (by omega : lst.length - 1 < n)]
      · have h2 : lst.length - n + n - 1 = (lst.length - n - 1) + n := by omega
        rw [h2, Nat.add_div_right _ hn]
        have h4 : lst.length - 1 = (lst.length - n - 1) + n := by omega
        rw [h4, Nat.add_div_right _ hn]

theorem divide_dropLast_fuel {α : Type} (n : Nat) (hn : 0 < n) :
    ∀ (fuel : Nat) (lst : List α), lst.length ≤ fuel →
    ∀ c ∈ (divide lst n).dropLast, c.length = n := by
  intro fuel
  induction fuel with
  | zero =>
    intro lst hlen c hc
    have h0 : lst = [] := List.length_eq_zero.mp (Nat.le_zero.mp hlen)
    subst h0
    rw [divide_nil] at hc
    cases hc
  | succ k ih =>
    intro lst hlen c hc
    by_cases hl : lst = []
    · subst hl
      rw [divide_nil] at hc
      cases hc
    · rw [divide_of_ne lst n hl (Nat.pos_iff_ne_zero.mp hn)] at hc
      by_cases hrec : divide (lst.drop n) n = []
      · rw [hrec] at hc
        cases hc
      · rw [List.dropLast_cons_of_ne_nil hrec] at hc
        have hdrop : lst.drop n ≠ [] := by
          intro hbad
          rw [hbad, divide_nil] at hrec
          exact hrec rfl
        have hnL : n < lst.length := by
          by_contra hba
          exact hdrop (List.drop_eq_nil_iff.mpr (by omega))
        rcases List.mem_cons.mp hc with hc | hc
        · subst hc
          rw [List.length_take]
          omega
        · exact ih (lst.drop n) (by rw [List.length_drop]; omega) c hc

theorem divide_getLast_fuel {α : Type} (n : Nat) (hn : 0 < n) :
    ∀ (fuel : Nat) (lst : List α), lst.length ≤ fuel → lst ≠ [] →
    ∃ c, (divide lst n).getLast? = some c ∧
      c.length = lst.length - n * ((divide lst n).length - 1) ∧ c ≠ [] := by
  intro fuel
  induction fuel with
  | zero =>
    intro lst hlen hl
    have h0 : lst = [] := List.length_eq_zero.mp (Nat.le_zero.mp hlen)
    exact absurd h0 hl
  | succ k ih =>
    intro lst hlen hl
    have hn0 : n ≠ 0 := Nat.pos_iff_ne_zero.mp hn
    rw [divide_of_ne lst n hl hn0]
    by_cases hLn : lst.length ≤ n
    · have hdrop : lst.drop n = [] := List.drop_eq_nil_iff.mpr hLn
      rw [hdrop, divide_nil]
      refine ⟨lst.take n, rfl, ?_, ?_⟩
      · rw [List.take_of_length_le hLn]
        simp
      · rw [List.take_of_length_le hLn]
        exact hl
    · have hdrop : lst.drop n ≠ [] := by
        intro hbad
        rw [List.drop_eq_nil_iff] at hbad
        omega
      obtain ⟨c, hlast, hclen, hcne⟩ := ih (lst.drop n)
        (by rw [List.length_drop]; omega) hdrop
      have hdivne : divide (lst.drop n) n ≠ [] := by
        rw [divide_of_ne _ _ hdrop hn0]
        simp
      refine ⟨c, ?_, ?_, hcne⟩
      · cases hd : divide (lst.drop n) n with
        | nil => exact absurd hd hdivne
        | cons b t =>
          rw [List.getLast?_cons_cons]
          rw [← hd, hlast]
      · rw [List.length_cons]
        rw [List.length_drop] at hclen
        have hrpos : 0 < (divide (lst.drop n) n).length := List.length_pos.mpr hdivne
        set r := (divide (lst.drop n) n).length with hr
        have hmul : n * r = n * (r - 1) + n := by
          have : r - 1 + 1 = r := by omega
          calc n * r = n * (r - 1 + 1) := by rw [this]
          _ = n * (r - 1) + n := by rw [Nat.mul_succ]
        have hcpos : 0 < c.length := List.length_pos.mpr hcne
        simp only [Nat.add_sub_cancel]
        omega

/-- C7: for every non-empty list of length L and chunk size n > 0, `divide`
yields exactly ceil(L/n) = (L+n-1)/n chunks; every chunk except possibly
the last has length n; the last chunk has length L - n*(ceil(L/n)-1) and is
never empty; and the chunks concatenate back to the original list in
order. -/
theorem batching_divide {α : Type} (lst : List α) (n : Nat) (hn : 0 < n) (hl : lst ≠ []) :
    (divide lst n).length = (lst.length + n - 1) / n
    ∧ (∀ c ∈ (divide lst n).dropLast, c.length = n)
    ∧ (∃ c, (divide lst n).getLast? = some c ∧
        c.length = lst.length - n * ((lst.length + n - 1) / n - 1) ∧ c ≠ [])
    ∧ (divide lst n).flatten = lst := by
  have hlen := divide_length_fuel n hn lst.length lst le_rfl
  refine ⟨hlen, ?_, ?_, ?_⟩
  · exact divide_dropLast_fuel n hn lst.length lst le_rfl
  · obtain ⟨c, h1, h2, h3⟩ := divide_getLast_fuel n hn lst.length lst le_rfl hl
    rw [hlen] at h2
    exact ⟨c, h1, h2, h3⟩
  · exact divide_join_fuel n hn lst.length lst le_rfl

/-- Instantiation of `batching_divide` at a concrete input. -/
theorem batching_divide_witness :
    (divide [1, 2, 3, 4, 5] 2).length = 3
    ∧ (divide [1, 2, 3, 4, 5] 2).flatten = [1, 2, 3, 4, 5] := by
  constructor
  · have h := (batching_divide [1, 2, 3, 4, 5] 2 (by decide) (by decide)).1
    rw [h]
    decide
  · exact (batching_divide [1, 2, 3, 4, 5] 2 (by decide) (by decide)).2.2.2

namespace seller

theorem get_offer_idsAux_total_fires :
    ∀ (ps : List Page) (acc : List Item) (k : Nat) (pk : Page),
    ps[k]? = some pk →
    (acc ++ ((ps.take (k+1)).map Page.items).flatten).length = pk.total →
    (∀ (j : Nat) (pj : Page), j < k → ps[j]? = some pj →
      (acc ++ ((ps.take (j+1)).map Page.items).flatten).length ≠ pj.total) →
    get_offer_idsAux ps acc = some (acc ++ ((ps.take (k+1)).map Page.items).flatten) := by
  intro ps
  induction ps with
  | nil =>
    intro acc k pk hget _ _
    simp at hget
  | cons p ps ih =>
    intro acc k pk hget hfire hleast
    cases k with
    | zero =>
      simp only [List.getElem?_cons_zero, Option.some.injEq] at hget
      subst hget
      simp only [List.take_succ_cons, List.take_zero, List.map_cons, List.map_nil,
        List.flatten_cons, List.flatten_nil, List.append_nil] at hfire ⊢
      simp only [get_offer_idsAux]
      rw [if_pos hfire.symm]
    | succ j =>
      have h0 : (acc ++ p.items).length ≠ p.total := by
        have := hleast 0 p (Nat.succ_pos j) (by simp)
        simpa using this
      simp only [get_offer_idsAux]
      rw [if_neg (fun hbad => h0 (hbad.symm))]
      have hget' : ps[j]? = some pk := by simpa using hget
      have hfire' : ((acc ++ p.items) ++ ((ps.take (j+1)).map Page.items).flatten).length
          = pk.total := by
        rw [List.append_assoc]
        simpa [List.take_succ_cons, List.flatten_cons, List.append_assoc] using hfire
      have hleast' : ∀ (i : Nat) (pi : Page), i < j → ps[i]? = some pi →
          ((acc ++ p.items) ++ ((ps.take (i+1)).map Page.items).flatten).length
            ≠ pi.total := by
        intro i pi hi hgi
        have := hleast (i+1) pi (by omega) (by simpa using hgi)
        rw [List.append_assoc]
        simpa [List.take_succ_cons, List.flatten_cons, List.append_assoc] using this
      have := ih (acc ++ p.items) j pk hget' hfire' hleast'
      rw [this]
      simp [List.take_succ_cons, List.flatten_cons, List.append_assoc]

theorem get_offer_idsAux_total_no_fire :
    ∀ (ps : List Page) (acc : List Item),
    (∀ (j : Nat) (pj : Page), ps[j]? = some pj →
      (acc ++ ((ps.take (j+1)).map Page.items).flatten).length ≠ pj.total) →
    get_offer_idsAux ps acc = none := by
  intro ps
  induction ps with
  | nil => intro acc _; rfl
  | cons p ps ih =>
    intro acc h
    have h0 : (acc ++ p.items).length ≠ p.total := by
      have := h 0 p (by simp)
      simpa using this
    simp only [get_offer_idsAux]
    rw [if_neg (fun hbad => h0 (hbad.symm))]
    refine ih (acc ++ p.items) ?_
    intro j pj hgj
    have := h (j+1) pj (by simpa using hgj)
    rw [List.append_assoc]
    simpa [List.take_succ_cons, List.flatten_cons, List.append_assoc] using this

end seller

namespace market

theorem get_offer_idsAux_token_fires :
    ∀ (ps : List Page) (acc : List Entry) (k : Nat) (pk : Page),
    ps[k]? = some pk →
    pk.nextPageToken = "" →
    (∀ (j : Nat) (pj : Page), j < k → ps[j]? = some pj → pj.nextPageToken ≠ "") →
    get_offer_idsAux ps acc = some (acc ++ ((ps.take (k+1)).map Page.entries).flatten) := by
  intro ps
  induction ps with
  | nil =>
    intro acc k pk hget _ _
    simp at hget
  | cons p ps ih =>
    intro acc k pk hget hfire hleast
    cases k with
    | zero =>
      simp only [List.getElem?_cons_zero, Option.some.injEq] at hget
      subst hget
      simp only [get_offer_idsAux]
      rw [if_pos hfire]
      simp [List.take_succ_cons, List.flatten_cons]
    | succ j =>
      have h0 : p.nextPageToken ≠ "" := hleast 0 p (Nat.succ_pos j) (by simp)
      simp only [get_offer_idsAux]
      rw [if_neg h0]
      have hget' : ps[j]? = some pk := by simpa using hget
      have hleast' : ∀ (i : Nat) (pi : Page), i < j → ps[i]? = some pi →
          pi.nextPageToken ≠ "" := by
        intro i pi hi hgi
        exact hleast (i+1) pi (by omega) (by simpa using hgi)
      rw [ih (acc ++ p.entries) j pk hget' hfire hleast']
      simp [List.take_succ_cons, List.flatten_cons, List.append_assoc]

theorem get_offer_idsAux_token_no_fire :
    ∀ (ps : List Page) (acc : List Entry),
    (∀ (j : Nat) (pj : Page), ps[j]? = some pj → pj.nextPageToken ≠ "") →
    get_offer_idsAux ps acc = none := by
  intro ps
  induction ps with
  | nil => intro acc _; rfl
  | cons p ps ih =>
    intro acc h
    have h0 : p.nextPageToken ≠ "" := h 0 p (by simp)
    simp only [get_offer_idsAux]
    rw [if_neg h0]
    exact ih (acc ++ p.entries) (fun j pj hgj => h (j+1) pj (by simpa using hgj))

end market

/-- C8: both offer-catalog fetchers terminate exactly when their exhaustion
signal first fires, returning the flattened identifiers of every page
consumed up to and including that point: the Ozon loop stops at the first
page at which the accumulated item count equals the reported
`total`, the Yandex loop at the first page carrying an empty
`nextPageToken`; if the signal never fires the loop never breaks (modelled
as `none` on an exhausted response script). -/
theorem pagination_exhaustion :
    (∀ (pages : List seller.Page) (k : Nat) (pk : seller.Page),
      pages[k]? = some pk →
      (((pages.take (k+1)).map seller.Page.items).flatten).length = pk.total →
      (∀ (j : Nat) (pj : seller.Page), j < k → pages[j]? = some pj →
        (((pages.take (j+1)).map seller.Page.items).flatten).length ≠ pj.total) →
      seller.get_offer_ids pages
        = some ((((pages.take (k+1)).map seller.Page.items).flatten).map
            seller.Item.offer_id))
    ∧ (∀ (pages : List seller.Page),
      (∀ (j : Nat) (pj : seller.Page), pages[j]? = some pj →
        (((pages.take (j+1)).map seller.Page.items).flatten).length ≠ pj.total) →
      seller.get_offer_ids pages = none)
    ∧ (∀ (pages : List market.Page) (k : Nat) (pk : market.Page),
      pages[k]? = some pk →
      pk.nextPageToken = "" →
      (∀ (j : Nat) (pj : market.Page), j < k → pages[j]? = some pj →
        pj.nextPageToken ≠ "") →
      market.get_offer_ids pages
        = some ((((pages.take (k+1)).map market.Page.entries).flatten).map
            market.Entry.shopSku))
    ∧ (∀ (pages : List market.Page),
      (∀ (j : Nat) (pj : market.Page), pages[j]? = some pj → pj.nextPageToken ≠ "") →
      market.get_offer_ids pages = none) := by
  refine ⟨?_, ?_, ?_, ?_⟩
  · intro pages k pk hget hfire hleast
    have h := seller.get_offer_idsAux_total_fires pages [] k pk hget (by simpa using hfire)
      (by intro j pj hj hgj; simpa using hleast j pj hj hgj)
    simp only [seller.get_offer_ids, h, List.nil_append, Option.map_some']
  · intro pages h
    have h2 := seller.get_offer_idsAux_total_no_fire pages []
      (by intro j pj hgj; simpa using h j pj hgj)
    simp only [seller.get_offer_ids, h2, Option.map_none']
  · intro pages k pk hget hfire hleast
    have h := market.get_offer_idsAux_token_fires pages [] k pk hget hfire hleast
    simp only [market.get_offer_ids, h, List.nil_append, Option.map_some']
  · intro pages h
    have h2 := market.get_offer_idsAux_token_no_fire pages [] h
    simp only [market.get_offer_ids, h2, Option.map_none']

/-- Instantiation of `pagination_exhaustion` at concrete response scripts. -/
theorem pagination_exhaustion_witness :
    seller.get_offer_ids [⟨[⟨"a"⟩, ⟨"b"⟩], 3, "x"⟩, ⟨[⟨"c"⟩], 3, "y"⟩]
      = some ["a", "b", "c"]
    ∧ market.get_offer_ids [⟨[⟨"d"⟩], "tok"⟩, ⟨[⟨"e"⟩], ""⟩] = some ["d", "e"]
    ∧ seller.get_offer_ids [⟨[⟨"a"⟩], 2, "x"⟩] = none
    ∧ market.get_offer_ids [⟨[⟨"d"⟩], "tok"⟩] = none := by
  refine ⟨?_, ?_, ?_, ?_⟩
  · have h := pagination_exhaustion.1 [⟨[⟨"a"⟩, ⟨"b"⟩], 3, "x"⟩, ⟨[⟨"c"⟩], 3, "y"⟩]
      1 ⟨[⟨"c"⟩], 3, "y"⟩ (by rfl) (by decide)
      (by intro j pj hj hgj
          have hj0 : j = 0 := by omega
          subst hj0
          simp only [List.getElem?_cons_zero, Option.some.injEq] at hgj
          subst hgj
          decide)
    rw [h]
    rfl
  · have h := pagination_exhaustion.2.2.1 [⟨[⟨"d"⟩], "tok"⟩, ⟨[⟨"e"⟩], ""⟩]
      1 ⟨[⟨"e"⟩], ""⟩ (by rfl) (by rfl)
      (by intro j pj hj hgj
          have hj0 : j = 0 := by omega
          subst hj0
          simp only [List.getElem?_cons_zero, Option.some.injEq] at hgj
          subst hgj
          decide)
    rw [h]
    rfl
  · have h := pagination_exhaustion.2.1 [⟨[⟨"a"⟩], 2, "x"⟩]
      (by intro j pj hgj
          cases j with
          | zero =>
            simp only [List.getElem?_cons_zero, Option.some.injEq] at hgj
            subst hgj
            decide
          | succ j' => simp at hgj)
    exact h
  · have h := pagination_exhaustion.2.2.2 [⟨[⟨"d"⟩], "tok"⟩]
      (by intro j pj hgj
          cases j with
          | zero =>
            simp only [List.getElem?_cons_zero, Option.some.injEq] at hgj
            subst hgj
            decide
          | succ j' => simp at hgj)
    exact h

/-- C3: the claim as frozen is false on the code: `main` in src/seller.py
passes the fetched `offer_ids` list itself (no copy) to `create_stocks`,
which depletes it, so the subsequent `create_prices` call receives only the
unmatched remainder. Concretely, with feed code "A" and fetched list
["A", "B"], price reconciliation receives ["B"] — not the complete fetched
set — and outputs no price for "A" even though `create_prices` on the full
fetched set would. -/
theorem orchestrator_copy_counterexample :
    (seller.syncCore [⟨"A", "5", "100"⟩] ["A", "B"]).map (fun t => t.2.1) = some ["B"]
    ∧ (["B"] : List String) ≠ ["A", "B"]
    ∧ (seller.syncCore [⟨"A", "5", "100"⟩] ["A", "B"]).map (fun t => t.2.2) = some []
    ∧ seller.create_prices [⟨"A", "5", "100"⟩] ["A", "B"] ≠ [] := by
  refine ⟨rfl, by decide, rfl, by decide⟩

/-- C3 (amended): in `main` of src/seller.py stock reconciliation runs
directly on the fetched offer-identifier list and mutates it in place, so
the list price reconciliation receives is exactly the remainder left by the
stock pass: for a duplicate-free fetched list, an identifier stays in that
list if and only if no feed record carries its code; every feed-matched
identifier is absent from the list the price pass receives. (`main` of
src/market.py likewise makes no copy, but its price step constructs an
un-awaited `upload_prices` coroutine that never runs and would refetch its
own list.) -/
theorem orchestrator_copy_amended :
    ∀ (wr : List SupplierRecord) (ids : List String) (stocks : List seller.Stock)
      (pin : List String) (prices : List seller.Price),
    ids.Nodup →
    seller.syncCore wr ids = some (stocks, pin, prices) →
    prices = seller.create_prices wr pin
    ∧ ∀ c ∈ ids, (c ∈ pin ↔ ∀ w ∈ wr, w.kod ≠ c) := by
  intro wr ids stocks pin prices hnd h
  simp only [seller.syncCore] at h
  cases hf : seller.create_stocksFull wr ids with
  | none => rw [hf] at h; cases h
  | some p =>
    obtain ⟨out, rest⟩ := p
    rw [hf] at h
    simp only [Option.some.injEq, Prod.mk.injEq] at h
    obtain ⟨h1, h2, h3⟩ := h
    subst h2
    subst h3
    obtain ⟨aout, ha, _⟩ := seller.create_stocksFull_eq wr ids out rest hf
    refine ⟨rfl, ?_⟩
    intro c hc
    constructor
    · intro hcp w hw hkod
      exact seller.create_stocksAux_matched_removed wr ids aout rest hnd ha w hw
        (hkod ▸ hc) (hkod ▸ hcp)
    · intro hnone
      exact seller.create_stocksAux_unmatched wr ids aout rest ha c hc hnone

/-- Instantiation of `orchestrator_copy_amended` at a concrete input. -/
theorem orchestrator_copy_amended_witness :
    (["A", "B"] : List String).Nodup
    ∧ seller.syncCore [⟨"A", "5", "100"⟩] ["A", "B"]
        = some ([⟨"A", 5⟩, ⟨"B", 0⟩], ["B"], [])
    ∧ ([] : List seller.Price) = seller.create_prices [⟨"A", "5", "100"⟩] ["B"] := by
  refine ⟨by decide, by rfl, ?_⟩
  exact (orchestrator_copy_amended [⟨"A", "5", "100"⟩] ["A", "B"]
    [⟨"A", 5⟩, ⟨"B", 0⟩] ["B"] [] (by decide) (by rfl)).1

theorem handleTop_total (e : Except PyError Unit) :
    ∃ msgs, handleTop e = MainOutcome.normal msgs := by
  cases e with
  | ok u => exact ⟨[], rfl⟩
  | error pe =>
    cases pe with
    | readTimeout => exact ⟨_, rfl⟩
    | connectionError m => exact ⟨_, rfl⟩
    | other m => exact ⟨_, rfl⟩

/-- C9: every error raised inside the try-protected orchestration body of
`main` — read timeouts, connection errors, and any other exception,
including the ValueError of a bad quantity — is caught by the except
ladder and only reported: `main` returns normally with at most one printed
report and never re-raises (the body is invoked exactly once, so nothing is
retried). In src/market.py the feed download precedes the `try` block, so
this covers every error arising after it. -/
theorem main_catches_all :
    (∀ env : seller.Env, ∃ msgs, seller.main env = MainOutcome.normal msgs)
    ∧ (∀ (wr : List SupplierRecord) (env : market.Env),
        ∃ msgs, market.main (Except.ok wr) env = MainOutcome.normal msgs)
    ∧ (∀ (env : seller.Env) (e : PyError), seller.tryBody env = Except.error e →
        ∃ msg, seller.main env = MainOutcome.normal [msg])
    ∧ (∀ (wr : List SupplierRecord) (env : market.Env) (e : PyError),
        market.tryBody wr env = Except.error e →
        ∃ msg, market.main (Except.ok wr) env = MainOutcome.normal [msg]) := by
  refine ⟨?_, ?_, ?_, ?_⟩
  · intro env
    exact handleTop_total (seller.tryBody env)
  · intro wr env
    exact handleTop_total (market.tryBody wr env)
  · intro env e h
    show ∃ msg, handleTop (seller.tryBody env) = MainOutcome.normal [msg]
    rw [h]
    cases e with
    | readTimeout => exact ⟨_, rfl⟩
    | connectionError m => exact ⟨_, rfl⟩
    | other m => exact ⟨_, rfl⟩
  · intro wr env e h
    show ∃ msg, handleTop (market.tryBody wr env) = MainOutcome.normal [msg]
    rw [h]
    cases e with
    | readTimeout => exact ⟨_, rfl⟩
    | connectionError m => exact ⟨_, rfl⟩
    | other m => exact ⟨_, rfl⟩

/-- Instantiation of `main_catches_all`: a fetch that fails with a read
timeout is caught and reported; `main` returns normally. -/
theorem main_catches_all_witness :
    ∃ msg, seller.main
      ⟨Except.error PyError.readTimeout, Except.ok [],
        fun _ => Except.ok (), fun _ => Except.ok ()⟩
      = MainOutcome.normal [msg] := by
  exact main_catches_all.2.2.1
    ⟨Except.error PyError.readTimeout, Except.ok [],
      fun _ => Except.ok (), fun _ => Except.ok ()⟩
    PyError.readTimeout rfl
